import Mathlib

/-!
# Deployment environment variables: reconciliation of remote, inline and file sources

A shallow embedding of `cloud/deployment/deployment_variable.go`.

* Go strings are Lean strings; `strings.Split(s, "=")` and `strings.HasPrefix`
  are defined on the characters of the string.
* Go slices are lists. An index expression `xs[i]` that is out of range makes the
  Go program stop with a run-time error; the embedding returns `none` there, so every
  function that indexes a slice returns an `Option`.
* `readLines` is an effect: the lines it returns are the parameter `vars`.
* Console messages (`fmt.Printf`) do not influence the variable set and are left out, except
  the message of `writeVarToFile`, which states what the export is to do.
* The target file of `writeVarToFile` is its content, a string; opening and writing succeed.
* Of `VariableList` and `VariableModify` the part after the fetch of the deployment is embedded:
  the fetch, the selection prompt and the rendering of the table are outside.
-/

set_option autoImplicit false

namespace Deployment

/-! ## Data model -/

/-- Modelled from the spec: the declaration of `astro.EnvironmentVariablesObject` is not part of
the sources at hand. A variable record fetched from the remote store has a key, a value, a secret
flag and the time stamp the store sets on persist. -/
structure EnvironmentVariablesObject where
  Key : String
  Value : String
  IsSecret : Bool
  UpdatedAt : String
  deriving DecidableEq, Repr

/-- Modelled from the spec: the declaration of `astro.EnvironmentVariable` is not part of the
sources at hand. A variable record that is sent to the store has the three fields that
`VariableModify` fills in: the secret flag, the key and the value. -/
structure EnvironmentVariable where
  IsSecret : Bool
  Key : String
  Value : String
  deriving DecidableEq, Repr

/-! ## Library functions used by the source -/

/-- The pieces of a character sequence between the occurrences of `=`; one piece more than there
are occurrences. -/
def splitChars : List Char → List (List Char)
  | [] => [[]]
  | c :: cs =>
    if c = '=' then [] :: splitChars cs
    else
      match splitChars cs with
      | [] => [[c]]
      | piece :: pieces => (c :: piece) :: pieces

/-- Go `strings.Split(s, "=")`. -/
def Split (s : String) : List String :=
  (splitChars s.data).map String.mk

/-- Go `strings.HasPrefix(s, "#")`. -/
def HasPrefixHash (s : String) : Bool :=
  match s.data with
  | [] => false
  | c :: _ => c == '#'

/-! ## `contains` -/

/-- The loop of `contains`, at index `i` with `elems` still to visit. -/
def containsLoop (v : String) : List String → Nat → Bool × Nat
  | [], _ => (false, 0)
  | s :: elems, i => if v = s then (true, i) else containsLoop v elems (i + 1)

/-- Go `contains(elems, v)`: whether `v` occurs in `elems`, with the index of its first occurrence
(`0` when it does not occur). -/
def contains (elems : List String) (v : String) : Bool × Nat :=
  containsLoop v elems 0

/-! ## The inline candidate -/

/-- Go `addVariableFromFlag`. `none` stands for an index out of range. -/
def addVariableFromFlag (oldKeyList : List String)
    (oldEnvironmentVariables : List EnvironmentVariablesObject)
    (newEnvironmentVariables : List EnvironmentVariable)
    (variableKey variableValue : String) (updateVars makeSecret : Bool) :
    Option (List EnvironmentVariable) :=
  let exist := (contains oldKeyList variableKey).1
  let num := (contains oldKeyList variableKey).2
  if exist && !updateVars then
    some newEnvironmentVariables
  else if exist && updateVars then
    match oldEnvironmentVariables[num]? with
    | none => none
    | some old =>
      let secret := if !makeSecret then old.IsSecret else makeSecret
      if num < newEnvironmentVariables.length then
        some (newEnvironmentVariables.set num ⟨secret, old.Key, variableValue⟩)
      else none
  else
    some (newEnvironmentVariables ++ [⟨makeSecret, variableKey, variableValue⟩])

/-! ## The file candidates -/

/-- The two variables the loop of `addVariablesFromFile` changes. -/
structure FileState where
  newKeyList : List String
  newEnvironmentVariables : List EnvironmentVariable
  deriving DecidableEq, Repr

/-- One iteration of the loop of `addVariablesFromFile`, on the line `line`. `none` stands for an
index out of range: in `strings.Split(line, "=")[1]` when the line has no `=`, or in the two
slices indexed by the position `contains` returns. -/
def fileStep (oldKeyList : List String)
    (oldEnvironmentVariables : List EnvironmentVariablesObject)
    (updateVars makeSecret : Bool) (st : FileState) (line : String) : Option FileState :=
  if HasPrefixHash line then some st
  else if line = "" then some st
  else
    match (Split line)[0]? with
    | none => none
    | some key =>
      match (Split line)[1]? with
      | none => none
      | some value =>
        if key = "" then some st
        else if value = "" then some st
        else if (contains st.newKeyList key).1 then some st
        else
          let exist := (contains oldKeyList key).1
          let num := (contains oldKeyList key).2
          if exist then
            if !updateVars then some st
            else
              match oldEnvironmentVariables[num]? with
              | none => none
              | some old =>
                let secret := if !makeSecret then old.IsSecret else makeSecret
                if num < st.newEnvironmentVariables.length then
                  some ⟨st.newKeyList ++ [key],
                    st.newEnvironmentVariables.set num ⟨secret, old.Key, value⟩⟩
                else none
          else
            some ⟨st.newKeyList ++ [key],
              st.newEnvironmentVariables ++ [⟨makeSecret, key, value⟩]⟩

/-- The loop of `addVariablesFromFile` over the lines that are left. -/
def fileLoop (oldKeyList : List String)
    (oldEnvironmentVariables : List EnvironmentVariablesObject)
    (updateVars makeSecret : Bool) : List String → FileState → Option FileState
  | [], st => some st
  | line :: rest, st =>
    match fileStep oldKeyList oldEnvironmentVariables updateVars makeSecret st line with
    | none => none
    | some st' => fileLoop oldKeyList oldEnvironmentVariables updateVars makeSecret rest st'

/-- Go `addVariablesFromFile`; `vars` is what `readLines envFile` returned. -/
def addVariablesFromFile (vars : List String) (oldKeyList : List String)
    (oldEnvironmentVariables : List EnvironmentVariablesObject)
    (newEnvironmentVariables : List EnvironmentVariable)
    (updateVars makeSecret : Bool) : Option (List EnvironmentVariable) :=
  (fileLoop oldKeyList oldEnvironmentVariables updateVars makeSecret vars
    ⟨[], newEnvironmentVariables⟩).map FileState.newEnvironmentVariables

/-! ## `VariableModify`: building the set that is sent to the store -/

/-- The record `VariableModify` copies from a fetched record. -/
def toInput (o : EnvironmentVariablesObject) : EnvironmentVariable :=
  ⟨o.IsSecret, o.Key, o.Value⟩

/-- The loop of `VariableModify` that seeds `newEnvironmentVariables` and `oldKeyList`. -/
def seed (oldEnvironmentVariables : List EnvironmentVariablesObject) :
    List EnvironmentVariable × List String :=
  oldEnvironmentVariables.foldl
    (fun acc o => (acc.1 ++ [toInput o], acc.2 ++ [o.Key])) ([], [])

/-- The part of Go `VariableModify` between the fetch of the deployment and the call of
`client.ModifyDeploymentVariable`: the value is the list `EnvironmentVariables` of the input that
is sent, `none` when the program stops with an index out of range before. -/
def VariableModify (oldEnvironmentVariables : List EnvironmentVariablesObject)
    (variableKey variableValue : String) (vars : List String)
    (useEnvFile makeSecret updateVars : Bool) : Option (List EnvironmentVariable) :=
  let newEnvironmentVariables := (seed oldEnvironmentVariables).1
  let oldKeyList := (seed oldEnvironmentVariables).2
  let afterFlag :=
    if variableKey ≠ "" ∧ variableValue ≠ "" then
      addVariableFromFlag oldKeyList oldEnvironmentVariables newEnvironmentVariables
        variableKey variableValue updateVars makeSecret
    else some newEnvironmentVariables
  match afterFlag with
  | none => none
  | some newEnvironmentVariables =>
    if useEnvFile then
      addVariablesFromFile vars oldKeyList oldEnvironmentVariables newEnvironmentVariables
        updateVars makeSecret
    else some newEnvironmentVariables

/-- The keys of a set, in order. -/
def keys (vs : List EnvironmentVariable) : List String :=
  vs.map EnvironmentVariable.Key

/-! ## One edit of the set under construction

Both `addVariableFromFlag` and an iteration of `addVariablesFromFile` either leave the set as it
is or change it in one of two ways: overwrite the record at the position `contains` found, or
append a record. -/

/-- The set `new'` comes from `new` by the update branch or the append branch, for the candidate
`(key, value)`. -/
inductive Edit (oldKeyList : List String) (old : List EnvironmentVariablesObject)
    (updateVars makeSecret : Bool) (key value : String) (new : List EnvironmentVariable) :
    List EnvironmentVariable → Prop
  | update (o : EnvironmentVariablesObject)
      (hexist : (contains oldKeyList key).1 = true) (hupd : updateVars = true)
      (hold : old[(contains oldKeyList key).2]? = some o)
      (hlt : (contains oldKeyList key).2 < new.length) :
      Edit oldKeyList old updateVars makeSecret key value new
        (new.set (contains oldKeyList key).2
          ⟨if !makeSecret then o.IsSecret else makeSecret, o.Key, value⟩)
  | append (hexist : (contains oldKeyList key).1 = false) :
      Edit oldKeyList old updateVars makeSecret key value new
        (new ++ [⟨makeSecret, key, value⟩])

/-- The line yields the candidate `(key, value)`: it is not a comment, not empty, and the first two
pieces of its split are `key` and `value`, both non-empty. -/
def Candidate (line key value : String) : Prop :=
  HasPrefixHash line = false ∧ line ≠ "" ∧ (Split line)[0]? = some key ∧
    (Split line)[1]? = some value ∧ key ≠ "" ∧ value ≠ ""

/-- The invariant behind secrecy monotonicity and order preservation: position by position, the
set under construction has the keys of `old`, and is secret where `old` is. -/
def Tracks (old : List EnvironmentVariablesObject) (new : List EnvironmentVariable) : Prop :=
  ∀ (i : Nat) (o : EnvironmentVariablesObject), old[i]? = some o →
    ∃ x : EnvironmentVariable,
      new[i]? = some x ∧ x.Key = o.Key ∧ (o.IsSecret = true → x.IsSecret = true)

/-- A line that is rejected for its form alone: it is empty, or a comment, or has an empty key
(the form `=value`), or has an empty value (the form `KEY=`, the key being the text before the
first `=`). -/
def RejectedForm (line : String) : Prop :=
  line = "" ∨ HasPrefixHash line = true ∨ (∃ value : String, line = "=" ++ value) ∨
    (∃ key : String, '=' ∉ key.data ∧ line = key ++ "=")

/-- The key of a line is settled for the rest of the file: no later line with this key changes
the state. -/
def Settled (oldKeyList : List String) (updateVars : Bool) (key : String) (st : FileState) :
    Prop :=
  key = "" ∨ key ∈ st.newKeyList ∨ (key ∈ oldKeyList ∧ updateVars = false)

/-! ## The export: `writeVarToFile` -/

/-- Go `writeVarToFile`, for a file that can be opened and written: `file` is the content of
`envFile` before the call, the value is its content after. The file is opened with `O_APPEND`, so
`f.WriteString(s)` puts `s` at the end of the content. -/
def writeVarToFile (environmentVariablesObjects : List EnvironmentVariablesObject)
    (variableKey : String) (file : String) : String :=
  environmentVariablesObjects.foldl
    (fun f o =>
      if o.Key = variableKey then f ++ ("\n" ++ o.Key ++ "=" ++ o.Value)
      else if variableKey = "" then f ++ ("\n" ++ o.Key ++ "=" ++ o.Value)
      else f)
    file

/-- The message `writeVarToFile` prints before it returns. -/
def writeVarToFileMessage (envFile : String) : String :=
  "\nThe following environment variables were saved to the file " ++ envFile
    ++ ",\nsecret environment variables were saved only with a key:\n"

/-- The text the export is to append, in the words of the specification: for every record in set
order whose key is the filter (every record when there is no filter), a line break and
`KEY=VALUE`. -/
def exportText (variableKey : String) : List EnvironmentVariablesObject → String
  | [] => ""
  | o :: rest =>
    if variableKey = "" ∨ o.Key = variableKey then
      ("\n" ++ o.Key ++ "=" ++ o.Value) ++ exportText variableKey rest
    else exportText variableKey rest

/-! ## The presenter: `VariableList` -/

/-- Go `strconv.Itoa`, on a count. -/
def Itoa (n : Nat) : String :=
  Nat.repr n

/-- Go `strconv.FormatBool`. -/
def FormatBool (b : Bool) : String :=
  if b then "true" else "false"

/-- The row `VariableList` adds for the record `o` when `n` is the count after the increment. -/
def tableRow (n : Nat) (o : EnvironmentVariablesObject) : List String :=
  [Itoa n, o.Key, o.Value, FormatBool o.IsSecret]

/-- The two variables the loop of `VariableList` changes: the count and the rows of `varTab`. -/
structure ListState where
  nbEnvVarFound : Nat
  rows : List (List String)
  deriving DecidableEq, Repr

/-- The loop of `VariableList` over the records that are left; the first branch ends with
`break`. -/
def listLoop (variableKey : String) : List EnvironmentVariablesObject → ListState → ListState
  | [], st => st
  | o :: rest, st =>
    if o.Key = variableKey then
      ⟨st.nbEnvVarFound + 1, st.rows ++ [tableRow (st.nbEnvVarFound + 1) o]⟩
    else if variableKey = "" then
      listLoop variableKey rest
        ⟨st.nbEnvVarFound + 1, st.rows ++ [tableRow (st.nbEnvVarFound + 1) o]⟩
    else listLoop variableKey rest st

/-- What the part of `VariableList` after the fetch produces: the rows added to the table, whether
`No variables found` was printed in place of the table, and the error returned (`none` for
`nil`). -/
structure ListResult where
  rows : List (List String)
  noVariablesFound : Bool
  err : Option String
  deriving DecidableEq, Repr

/-- The part of Go `VariableList` from the loop over the variables of the deployment to the
return. -/
def VariableList (environmentVariablesObjects : List EnvironmentVariablesObject)
    (variableKey : String) : ListResult :=
  let st := listLoop variableKey environmentVariablesObjects ⟨0, []⟩
  if st.nbEnvVarFound = 0 then ⟨st.rows, true, none⟩
  else ⟨st.rows, false, none⟩

/-- The records a filter selects, in the words of the specification: those whose key is the
filter, all records when the filter is empty. -/
def matching (variableKey : String) (objs : List EnvironmentVariablesObject) :
    List EnvironmentVariablesObject :=
  objs.filter (fun o => decide (variableKey = "" ∨ o.Key = variableKey))

/-- The rows for the records `ms` when `n` rows were added before. -/
def rowsFrom (n : Nat) : List EnvironmentVariablesObject → List (List String)
  | [] => []
  | o :: rest => tableRow (n + 1) o :: rowsFrom (n + 1) rest

/-- The invariant of the file loop behind key uniqueness: the keys of the set under construction
are the existing keys followed by keys that the file loop recorded, without repetition. -/
def KeysInv (oldKeyList : List String) (st : FileState) : Prop :=
  ∃ A : List String, keys st.newEnvironmentVariables = oldKeyList ++ A ∧
    (∀ a ∈ A, a ∈ st.newKeyList) ∧ (oldKeyList ++ A).Nodup

/-- A line on which the loop cannot index the split out of range: it is empty, a comment, or
contains `=`. -/
def WellFormedLine (line : String) : Prop :=
  line ≠ "" → HasPrefixHash line = false → '=' ∈ line.data

/-! ## Lemmas on `contains` -/

theorem containsLoop_spec (v : String) : ∀ (l : List String) (i : Nat),
    ((containsLoop v l i).1 = true ↔ v ∈ l) ∧
    ((containsLoop v l i).1 = true →
      i ≤ (containsLoop v l i).2 ∧ l[(containsLoop v l i).2 - i]? = some v) := by
  intro l
  induction l with
  | nil => intro i; simp [containsLoop]
  | cons s t ih =>
    intro i
    by_cases hv : v = s
    · subst hv
      simp [containsLoop]
    · obtain ⟨h1, h2⟩ := ih (i + 1)
      simp only [containsLoop, hv, if_false, List.mem_cons, false_or]
      refine ⟨h1, fun h => ?_⟩
      obtain ⟨hle, hget⟩ := h2 h
      refine ⟨by omega, ?_⟩
      have : (containsLoop v t (i + 1)).2 - i = ((containsLoop v t (i + 1)).2 - (i + 1)) + 1 := by
        omega
      rw [this, List.getElem?_cons_succ]
      exact hget

theorem contains_fst_iff (l : List String) (v : String) : (contains l v).1 = true ↔ v ∈ l :=
  (containsLoop_spec v l 0).1

theorem contains_fst_false_iff (l : List String) (v : String) :
    (contains l v).1 = false ↔ v ∉ l := by
  rw [← contains_fst_iff]; simp

theorem contains_get (l : List String) (v : String) (h : (contains l v).1 = true) :
    l[(contains l v).2]? = some v := by
  have := ((containsLoop_spec v l 0).2 h).2
  simpa [contains] using this

theorem contains_lt (l : List String) (v : String) (h : (contains l v).1 = true) :
    (contains l v).2 < l.length := by
  have := contains_get l v h
  by_contra hge
  rw [List.getElem?_eq_none (by omega)] at this
  exact Option.noConfusion this

/-! ## Lemmas on the seeding loop -/

theorem seed_foldl (old : List EnvironmentVariablesObject) :
    ∀ acc : List EnvironmentVariable × List String,
      old.foldl (fun acc o => (acc.1 ++ [toInput o], acc.2 ++ [o.Key])) acc
        = (acc.1 ++ old.map toInput, acc.2 ++ old.map EnvironmentVariablesObject.Key) := by
  induction old with
  | nil => intro acc; simp
  | cons o t ih => intro acc; simp [List.foldl_cons, ih]

theorem seed_eq (old : List EnvironmentVariablesObject) :
    seed old = (old.map toInput, old.map EnvironmentVariablesObject.Key) := by
  simp [seed, seed_foldl]

/-! ## What a call and an iteration can do -/

theorem addVariableFromFlag_cases {K : List String} {old : List EnvironmentVariablesObject}
    {new r : List EnvironmentVariable} {k v : String} {u m : Bool}
    (h : addVariableFromFlag K old new k v u m = some r) :
    r = new ∨ Edit K old u m k v new r := by
  unfold addVariableFromFlag at h
  simp only at h
  split at h
  · left; simpa using h.symm
  · rename_i h1
    split at h
    · rename_i h2
      simp only [Bool.and_eq_true] at h2
      split at h
      · exact Option.noConfusion h
      · rename_i o ho
        split at h
        · rename_i hlt
          right
          have hr := Option.some.inj h
          rw [← hr]
          exact Edit.update o h2.1 h2.2 ho hlt
        · exact Option.noConfusion h
    · rename_i h2
      right
      have hr := Option.some.inj h
      rw [← hr]
      refine Edit.append ?_
      cases he : (contains K k).1 <;> cases u <;> simp_all

theorem fileStep_cases {K : List String} {old : List EnvironmentVariablesObject}
    {u m : Bool} {st st' : FileState} {line : String}
    (h : fileStep K old u m st line = some st') :
    st' = st ∨ ∃ key value, Candidate line key value ∧ key ∉ st.newKeyList ∧
      st'.newKeyList = st.newKeyList ++ [key] ∧
      Edit K old u m key value st.newEnvironmentVariables st'.newEnvironmentVariables := by
  unfold fileStep at h
  split at h
  · left; simpa using h.symm
  rename_i hc
  split at h
  · left; simpa using h.symm
  rename_i he
  split at h
  · exact Option.noConfusion h
  rename_i key hkey
  split at h
  · exact Option.noConfusion h
  rename_i value hvalue
  split at h
  · left; simpa using h.symm
  rename_i hk
  split at h
  · left; simpa using h.symm
  rename_i hv
  split at h
  · left; simpa using h.symm
  rename_i hnew
  have hcand : Candidate line key value :=
    ⟨by simpa using hc, he, hkey, hvalue, hk, hv⟩
  have hnotin : key ∉ st.newKeyList := by
    rw [← contains_fst_false_iff]; simpa using hnew
  simp only at h
  split at h
  · rename_i hex
    split at h
    · left; simpa using h.symm
    rename_i hu
    split at h
    · exact Option.noConfusion h
    rename_i o ho
    split at h
    · rename_i hlt
      right
      have hr := Option.some.inj h
      refine ⟨key, value, hcand, hnotin, by rw [← hr], ?_⟩
      rw [← hr]
      exact Edit.update o hex (by simpa using hu) ho hlt
    · exact Option.noConfusion h
  · rename_i hex
    right
    have hr := Option.some.inj h
    refine ⟨key, value, hcand, hnotin, by rw [← hr], ?_⟩
    rw [← hr]
    exact Edit.append (by simpa using hex)

/-! ## Lemmas on the loop and on `VariableModify` -/

theorem fileLoop_invariant {K : List String} {old : List EnvironmentVariablesObject}
    {u m : Bool} (P : FileState → Prop) (vars : List String)
    (hstep : ∀ st line st', line ∈ vars → P st → fileStep K old u m st line = some st' → P st') :
    ∀ st st', P st → fileLoop K old u m vars st = some st' → P st' := by
  induction vars with
  | nil =>
    intro st st' hP h
    simp only [fileLoop, Option.some.injEq] at h
    exact h ▸ hP
  | cons line rest ih =>
    intro st st' hP h
    unfold fileLoop at h
    cases hs : fileStep K old u m st line with
    | none => rw [hs] at h; exact Option.noConfusion h
    | some s =>
      rw [hs] at h
      exact ih (fun st line st' hl => hstep st line st' (List.mem_cons_of_mem _ hl)) s st'
        (hstep st line s (List.mem_cons_self _ _) hP hs) h

theorem fileLoop_append {K : List String} {old : List EnvironmentVariablesObject}
    {u m : Bool} (a b : List String) : ∀ st : FileState,
    fileLoop K old u m (a ++ b) st = (fileLoop K old u m a st).bind (fileLoop K old u m b) := by
  induction a with
  | nil => intro st; simp [fileLoop]
  | cons line rest ih =>
    intro st
    simp only [List.cons_append, fileLoop]
    cases fileStep K old u m st line with
    | none => simp
    | some s => simpa using ih s

/-- An invariant of the set under construction that holds for the seed and is kept by every edit
for a candidate of the pass holds for the set `VariableModify` builds. -/
theorem VariableModify_invariant (P : List EnvironmentVariable → Prop)
    {old : List EnvironmentVariablesObject} {k v : String} {vars : List String}
    {f m u : Bool} {r : List EnvironmentVariable}
    (h : VariableModify old k v vars f m u = some r)
    (h0 : P (old.map toInput))
    (hE : ∀ key value new new', key ≠ "" → value ≠ "" →
      ((key = k ∧ value = v) ∨ ∃ line ∈ vars, Candidate line key value) → P new →
      Edit (old.map EnvironmentVariablesObject.Key) old u m key value new new' → P new') :
    P r := by
  unfold VariableModify at h
  simp only [seed_eq] at h
  split at h
  · exact Option.noConfusion h
  rename_i new1 hflag
  have h1 : P new1 := by
    split at hflag
    · rename_i hkv
      rcases addVariableFromFlag_cases hflag with hr | hr
      · rw [hr]; exact h0
      · exact hE k v _ _ hkv.1 hkv.2 (Or.inl ⟨rfl, rfl⟩) h0 hr
    · rw [← Option.some.inj hflag]; exact h0
  split at h
  · unfold addVariablesFromFile at h
    cases hl : fileLoop (old.map EnvironmentVariablesObject.Key) old u m vars ⟨[], new1⟩ with
    | none => rw [hl] at h; exact Option.noConfusion h
    | some st' =>
      rw [hl] at h
      simp only [Option.map_some', Option.some.injEq] at h
      rw [← h]
      refine fileLoop_invariant (fun st => P st.newEnvironmentVariables) vars ?_ _ _ h1 hl
      intro st line s hline hP hs
      rcases fileStep_cases hs with hr | ⟨key, value, hc, -, -, he⟩
      · rw [hr]; exact hP
      · exact hE key value _ _ hc.2.2.2.2.1 hc.2.2.2.2.2 (Or.inr ⟨line, hline, hc⟩) hP he
  · rw [← Option.some.inj h]; exact h1

/-- The position `contains` finds in the key list of `old` holds a record with the key asked
for. -/
theorem key_at_found {old : List EnvironmentVariablesObject} {key : String}
    {o : EnvironmentVariablesObject}
    (hexist : (contains (old.map EnvironmentVariablesObject.Key) key).1 = true)
    (hold : old[(contains (old.map EnvironmentVariablesObject.Key) key).2]? = some o) :
    o.Key = key := by
  have := contains_get _ _ hexist
  rw [List.getElem?_map, hold] at this
  simpa using this

theorem tracks_seed (old : List EnvironmentVariablesObject) : Tracks old (old.map toInput) := by
  intro i o hi
  exact ⟨toInput o, by simp [hi], rfl, fun h => h⟩

theorem tracks_edit {old : List EnvironmentVariablesObject} {u m : Bool} {key value : String}
    {new new' : List EnvironmentVariable} (hT : Tracks old new)
    (he : Edit (old.map EnvironmentVariablesObject.Key) old u m key value new new') :
    Tracks old new' := by
  intro i o hi
  obtain ⟨x, hx, hk, hs⟩ := hT i o hi
  cases he with
  | update o' hexist hupd hold hlt =>
    by_cases hin : (contains (old.map EnvironmentVariablesObject.Key) key).2 = i
    · rw [hin] at hold hlt ⊢
      rw [hi] at hold
      cases hold
      refine ⟨_, List.getElem?_set_self hlt, rfl, ?_⟩
      intro hsec
      cases m <;> simp [hsec]
    · exact ⟨x, by rw [List.getElem?_set_ne hin]; exact hx, hk, hs⟩
  | append hexist =>
    have hlt : i < new.length := (List.getElem?_eq_some.1 hx).1
    exact ⟨x, by rw [List.getElem?_append_left hlt]; exact hx, hk, hs⟩

theorem tracks_result {old : List EnvironmentVariablesObject} {k v : String}
    {vars : List String} {f m u : Bool} {r : List EnvironmentVariable}
    (h : VariableModify old k v vars f m u = some r) : Tracks old r :=
  VariableModify_invariant (Tracks old) h (tracks_seed old)
    (fun _ _ _ _ _ _ _ hT he => tracks_edit hT he)

theorem untouched_edit {old : List EnvironmentVariablesObject} {u m : Bool}
    {key value : String} {new new' : List EnvironmentVariable} {i : Nat}
    {o : EnvironmentVariablesObject} (hi : old[i]? = some o) (hkey : key ≠ o.Key)
    (hnew : new[i]? = some (toInput o))
    (he : Edit (old.map EnvironmentVariablesObject.Key) old u m key value new new') :
    new'[i]? = some (toInput o) := by
  cases he with
  | update o' hexist hupd hold hlt =>
    by_cases hin : (contains (old.map EnvironmentVariablesObject.Key) key).2 = i
    · exfalso
      have hk := key_at_found hexist hold
      rw [hin, hi] at hold
      cases hold
      exact hkey hk.symm
    · rw [List.getElem?_set_ne hin]; exact hnew
  | append hexist =>
    have hlt : i < new.length := (List.getElem?_eq_some.1 hnew).1
    rw [List.getElem?_append_left hlt]; exact hnew

theorem nonempty_edit {old : List EnvironmentVariablesObject} {u m : Bool}
    {key value : String} {new new' : List EnvironmentVariable}
    (hold : ∀ o ∈ old, o.Key ≠ "" ∧ o.Value ≠ "") (hk : key ≠ "") (hv : value ≠ "")
    (hnew : ∀ x ∈ new, x.Key ≠ "" ∧ x.Value ≠ "")
    (he : Edit (old.map EnvironmentVariablesObject.Key) old u m key value new new') :
    ∀ x ∈ new', x.Key ≠ "" ∧ x.Value ≠ "" := by
  cases he with
  | update o' hexist hupd ho hlt =>
    intro x hx
    rcases List.mem_or_eq_of_mem_set hx with hx | hx
    · exact hnew x hx
    · rw [hx]
      exact ⟨(hold o' (List.getElem?_mem ho)).1, hv⟩
  | append hexist =>
    intro x hx
    rcases List.mem_append.1 hx with hx | hx
    · exact hnew x hx
    · rw [List.mem_singleton.1 hx]
      exact ⟨hk, hv⟩

/-! ## Lemmas on `Split` -/

theorem splitChars_ne_nil (cs : List Char) : splitChars cs ≠ [] := by
  cases cs with
  | nil => simp [splitChars]
  | cons c t =>
    unfold splitChars
    split
    · simp
    · split <;> simp

theorem splitChars_length_cons_ne (c : Char) (t : List Char) (hc : c ≠ '=') :
    (splitChars (c :: t)).length = (splitChars t).length := by
  rw [splitChars, if_neg hc]
  split
  · rename_i h; exact absurd h (splitChars_ne_nil t)
  · rename_i piece pieces h; rw [h]; rfl

theorem splitChars_length_of_mem (cs : List Char) (h : '=' ∈ cs) :
    2 ≤ (splitChars cs).length := by
  induction cs with
  | nil => simp at h
  | cons c t ih =>
    by_cases hc : c = '='
    · rw [splitChars, if_pos hc, List.length_cons]
      have := List.length_pos.2 (splitChars_ne_nil t)
      omega
    · rw [splitChars_length_cons_ne c t hc]
      rcases List.mem_cons.1 h with h | h
      · exact absurd h.symm hc
      · exact ih h

theorem splitChars_key_only (k : List Char) (hk : '=' ∉ k) :
    splitChars (k ++ ['=']) = [k, []] := by
  induction k with
  | nil => simp [splitChars]
  | cons c t ih =>
    have hc : c ≠ '=' := fun e => hk (by simp [e])
    have ht : '=' ∉ t := fun e => hk (List.mem_cons_of_mem _ e)
    rw [List.cons_append, splitChars, if_neg hc, ih ht]

theorem Split_snd_of_mem (line : String) (h : '=' ∈ line.data) :
    ∃ value, (Split line)[1]? = some value := by
  have hlen : 1 < (Split line).length := by
    have := splitChars_length_of_mem line.data h
    simp only [Split, List.length_map]
    omega
  exact ⟨_, List.getElem?_eq_getElem hlen⟩

/-! ## Lines that leave the state as it is -/

theorem fileStep_skip {K : List String} {old : List EnvironmentVariablesObject} {u m : Bool}
    {line : String} (key value : String) (h0 : (Split line)[0]? = some key)
    (h1 : (Split line)[1]? = some value) (hkv : key = "" ∨ value = "") (st : FileState) :
    fileStep K old u m st line = some st := by
  unfold fileStep
  rw [h0, h1]
  rcases hkv with hk | hv
  · simp [hk]
  · simp [hv]

theorem fileStep_rejected {K : List String} {old : List EnvironmentVariablesObject} {u m : Bool}
    {line : String} (h : RejectedForm line) (st : FileState) :
    fileStep K old u m st line = some st := by
  rcases h with h | h | ⟨value, h⟩ | ⟨key, hk, h⟩
  · subst h
    simp [fileStep]
  · simp [fileStep, h]
  · have hd : line.data = '=' :: value.data := by rw [h]; rfl
    obtain ⟨w, hw⟩ := Split_snd_of_mem line (by rw [hd]; simp)
    refine fileStep_skip "" w ?_ hw (Or.inl rfl) st
    simp [Split, hd, splitChars]
  · have hd : line.data = key.data ++ ['='] := by rw [h]; rfl
    have hs : Split line = [key, ""] := by
      simp only [Split, hd, splitChars_key_only _ hk]
      rfl
    exact fileStep_skip key "" (by rw [hs]; rfl) (by rw [hs]; rfl)
      (Or.inr rfl) st

theorem fileLoop_eraseIdx {K : List String} {old : List EnvironmentVariablesObject} {u m : Bool}
    (lines : List String) (j : Nat) (line : String) (hj : lines[j]? = some line)
    (st0 : FileState)
    (hskip : ∀ s, fileLoop K old u m (lines.take j) st0 = some s →
      fileStep K old u m s line = some s) :
    fileLoop K old u m lines st0 = fileLoop K old u m (lines.eraseIdx j) st0 := by
  obtain ⟨hlt, hget⟩ := List.getElem?_eq_some.1 hj
  have hsplit : lines = lines.take j ++ line :: lines.drop (j + 1) := by
    conv_lhs => rw [← List.take_append_drop j lines, List.drop_eq_getElem_cons hlt, hget]
  rw [List.eraseIdx_eq_take_drop_succ]
  conv_lhs => rw [hsplit]
  rw [fileLoop_append, fileLoop_append]
  cases hp : fileLoop K old u m (lines.take j) st0 with
  | none => rfl
  | some s =>
    simp only [Option.some_bind]
    rw [fileLoop, hskip s hp]

theorem VariableModify_congr_lines {old : List EnvironmentVariablesObject} {k v : String}
    {f m u : Bool} (l1 l2 : List String)
    (h : ∀ K new, fileLoop K old u m l1 ⟨[], new⟩ = fileLoop K old u m l2 ⟨[], new⟩) :
    VariableModify old k v l1 f m u = VariableModify old k v l2 f m u := by
  unfold VariableModify addVariablesFromFile
  simp only [h]

/-! ## A key that was seen is settled -/

theorem settled_step {K : List String} {old : List EnvironmentVariablesObject} {u m : Bool}
    {key : String} {st st' : FileState} {line : String} (hQ : Settled K u key st)
    (h : fileStep K old u m st line = some st') : Settled K u key st' := by
  rcases fileStep_cases h with hr | ⟨key', value', -, -, hkeys, -⟩
  · rw [hr]; exact hQ
  · rcases hQ with hQ | hQ | hQ
    · exact Or.inl hQ
    · exact Or.inr (Or.inl (by rw [hkeys]; exact List.mem_append_left _ hQ))
    · exact Or.inr (Or.inr hQ)

theorem settled_of_step {K : List String} {old : List EnvironmentVariablesObject} {u m : Bool}
    {line key value : String} {st st' : FileState} (hc : HasPrefixHash line = false)
    (h0 : (Split line)[0]? = some key) (h1 : (Split line)[1]? = some value)
    (hv : value ≠ "") (h : fileStep K old u m st line = some st') :
    Settled K u key st' := by
  by_cases hk : key = ""
  · exact Or.inl hk
  by_cases hin : key ∈ st.newKeyList
  · exact settled_step (Or.inr (Or.inl hin)) h
  rcases fileStep_cases h with hr | ⟨key', value', hcand, -, hkeys, -⟩
  · -- the line was skipped: the only reason left is an existing key without update
    rw [hr]
    have hne : line ≠ "" := by
      intro e
      rw [e] at h1
      exact Option.noConfusion h1
    have hnew : (contains st.newKeyList key).1 = false :=
      (contains_fst_false_iff _ _).2 hin
    unfold fileStep at h
    rw [h0, h1] at h
    simp only [hc, hne, hk, hv, hnew, if_false, Bool.false_eq_true] at h
    by_cases hex : (contains K key).1 = true
    · refine Or.inr (Or.inr ⟨(contains_fst_iff _ _).1 hex, ?_⟩)
      cases u with
      | false => rfl
      | true =>
        exfalso
        simp only [hex, if_true, Bool.not_true, Bool.false_eq_true, if_false] at h
        split at h
        · exact Option.noConfusion h
        · split at h
          · have hst := Option.some.inj h
            rw [← hst] at hr
            have hkeys := congrArg FileState.newKeyList hr
            simp at hkeys
          · exact Option.noConfusion h
    · exfalso
      simp only [hex, if_false] at h
      have hst := Option.some.inj h
      rw [← hst] at hr
      have hkeys := congrArg FileState.newKeyList hr
      simp at hkeys
  · have hkk : key' = key := by
      have := hcand.2.2.1
      rw [h0] at this
      exact (Option.some.inj this).symm
    exact Or.inr (Or.inl (by rw [hkeys, hkk]; simp))

theorem settled_after (K : List String) (old : List EnvironmentVariablesObject) (u m : Bool)
    {line key value : String} (hc : HasPrefixHash line = false)
    (h0 : (Split line)[0]? = some key) (h1 : (Split line)[1]? = some value)
    (hv : value ≠ "") : ∀ (pre : List String) (st s : FileState), line ∈ pre →
      fileLoop K old u m pre st = some s → Settled K u key s := by
  intro pre
  induction pre with
  | nil => intro st s hmem; simp at hmem
  | cons l rest ih =>
    intro st s hmem h
    unfold fileLoop at h
    cases hs : fileStep K old u m st l with
    | none => rw [hs] at h; exact Option.noConfusion h
    | some s1 =>
      rw [hs] at h
      by_cases hl : line = l
      · subst hl
        exact fileLoop_invariant (Settled K u key) rest
          (fun _ _ _ _ hQ hstep => settled_step hQ hstep) s1 s
          (settled_of_step hc h0 h1 hv hs) h
      · rcases List.mem_cons.1 hmem with hm | hm
        · exact absurd hm hl
        · exact ih s1 s hm h

theorem fileStep_settled {K : List String} {old : List EnvironmentVariablesObject} {u m : Bool}
    {line key : String} {st : FileState} (hQ : Settled K u key st)
    (h0 : (Split line)[0]? = some key) (heq : '=' ∈ line.data) :
    fileStep K old u m st line = some st := by
  obtain ⟨value, h1⟩ := Split_snd_of_mem line heq
  rcases hQ with hQ | hQ | ⟨hQ, hu⟩
  · exact fileStep_skip key value h0 h1 (Or.inl hQ) st
  · unfold fileStep
    rw [h0, h1]
    simp [(contains_fst_iff _ _).2 hQ]
  · unfold fileStep
    rw [h0, h1]
    simp [(contains_fst_iff _ _).2 hQ, hu]

/-! ## Claims -/

/-- C2. Secrecy monotonicity over a whole pass: whenever `VariableModify` completes with the set
`r`, at every position `i` of the existing set the record of `r` has the key of the existing record,
and it is secret if the existing record was, whatever the secret flag of the pass. -/
theorem C2_secrecy_monotone (old : List EnvironmentVariablesObject) (k v : String)
    (vars : List String) (f m u : Bool) (r : List EnvironmentVariable)
    (h : VariableModify old k v vars f m u = some r)
    (i : Nat) (o : EnvironmentVariablesObject) (hi : old[i]? = some o) :
    ∃ x : EnvironmentVariable,
      r[i]? = some x ∧ x.Key = o.Key ∧ (o.IsSecret = true → x.IsSecret = true) :=
  tracks_result h i o hi

/-- Witness of C2: the secret record `S` is updated by the file line `S=y` in a pass whose secret
flag is off, and stays secret. -/
theorem C2_secrecy_monotone_witness :
    VariableModify [⟨"S", "x", true, ""⟩] "" "" ["S=y"] true false true
        = some [⟨true, "S", "y"⟩] ∧
      ∃ x : EnvironmentVariable,
        ([⟨true, "S", "y"⟩] : List EnvironmentVariable)[0]? = some x ∧ x.Key = "S" ∧
          (true = true → x.IsSecret = true) :=
  ⟨by decide,
    C2_secrecy_monotone [⟨"S", "x", true, ""⟩] "" "" ["S=y"] true false true
      [⟨true, "S", "y"⟩] (by decide) 0 ⟨"S", "x", true, ""⟩ rfl⟩

/-- C3. Create-only protection: with `updateVars = false`, whenever `VariableModify` completes,
its result is the existing set, record by record (same key, value and secret flag, same
positions), followed by the records the candidates appended. -/
theorem C3_create_only (old : List EnvironmentVariablesObject) (k v : String)
    (vars : List String) (f m : Bool) (r : List EnvironmentVariable)
    (h : VariableModify old k v vars f m false = some r) :
    (∃ extra, r = old.map toInput ++ extra) ∧
      ∀ (i : Nat) (o : EnvironmentVariablesObject),
        old[i]? = some o → r[i]? = some (toInput o) := by
  have hpre : ∃ extra, r = old.map toInput ++ extra := by
    refine VariableModify_invariant (fun new => ∃ extra, new = old.map toInput ++ extra) h
      ⟨[], by simp⟩ ?_
    intro key value new new' _ _ _ hP he
    obtain ⟨extra, hx⟩ := hP
    cases he with
    | update o' hexist hupd ho hlt => exact Bool.noConfusion hupd
    | append hexist => exact ⟨extra ++ [⟨m, key, value⟩], by rw [hx, List.append_assoc]⟩
  refine ⟨hpre, ?_⟩
  intro i o hi
  obtain ⟨extra, hx⟩ := hpre
  have hlt : i < (old.map toInput).length := by
    rw [List.length_map]; exact (List.getElem?_eq_some.1 hi).1
  rw [hx, List.getElem?_append_left hlt, List.getElem?_map, hi]
  rfl

/-- Witness of C3 (scenario 1): existing `K1 = V1`, inline candidate `(K1, V2)`, no update
allowed: the set is unchanged. -/
theorem C3_create_only_witness :
    VariableModify [⟨"K1", "V1", false, ""⟩] "K1" "V2" [] false false false
        = some [⟨false, "K1", "V1"⟩] ∧
      ((∃ extra, ([⟨false, "K1", "V1"⟩] : List EnvironmentVariable)
          = List.map toInput [⟨"K1", "V1", false, ""⟩] ++ extra) ∧
        ∀ (i : Nat) (o : EnvironmentVariablesObject),
          ([⟨"K1", "V1", false, ""⟩] : List EnvironmentVariablesObject)[i]? = some o →
          ([⟨false, "K1", "V1"⟩] : List EnvironmentVariable)[i]? = some (toInput o)) :=
  ⟨by decide,
    C3_create_only [⟨"K1", "V1", false, ""⟩] "K1" "V2" [] false false
      [⟨false, "K1", "V1"⟩] (by decide)⟩

/-- C4. Order preservation and no dropped keys: whenever `VariableModify` completes with `r`,
`r` is at least as long as the existing set, has the existing keys at the existing positions, and
every existing record whose key is neither the inline key nor the key of a file line that is no
comment is in `r` unchanged at its position. -/
theorem C4_order_preserved (old : List EnvironmentVariablesObject) (k v : String)
    (vars : List String) (f m u : Bool) (r : List EnvironmentVariable)
    (h : VariableModify old k v vars f m u = some r) :
    old.length ≤ r.length ∧
      (∀ (i : Nat) (o : EnvironmentVariablesObject), old[i]? = some o →
        ∃ x : EnvironmentVariable, r[i]? = some x ∧ x.Key = o.Key) ∧
      (∀ (i : Nat) (o : EnvironmentVariablesObject), old[i]? = some o → o.Key ≠ k →
        (∀ line ∈ vars, HasPrefixHash line = false → (Split line)[0]? ≠ some o.Key) →
        r[i]? = some (toInput o)) := by
  have hT := tracks_result h
  refine ⟨?_, ?_, ?_⟩
  · by_contra hlt
    have hpos : old.length - 1 < old.length := by omega
    obtain ⟨x, hx, -⟩ := hT (old.length - 1) _ (List.getElem?_eq_getElem hpos)
    have := (List.getElem?_eq_some.1 hx).1
    omega
  · intro i o hi
    obtain ⟨x, hx, hk, -⟩ := hT i o hi
    exact ⟨x, hx, hk⟩
  · intro i o hi hk hlines
    refine VariableModify_invariant (fun new => new[i]? = some (toInput o)) h
      (by simp [hi]) ?_
    intro key value new new' _ _ hc hP he
    refine untouched_edit hi ?_ hP he
    rcases hc with ⟨hkey, -⟩ | ⟨line, hline, hcand⟩
    · rw [hkey]; exact fun e => hk e.symm
    · intro e
      exact hlines line hline hcand.1 (by rw [← e]; exact hcand.2.2.1)

/-- Witness of C4: the inline candidate updates `A`, the file appends `C`; `B` is the key of no
candidate and stays as it was at position 1. -/
theorem C4_order_preserved_witness :
    VariableModify [⟨"A", "1", false, ""⟩, ⟨"B", "2", true, ""⟩] "A" "9" ["C=3"] true false true
        = some [⟨false, "A", "9"⟩, ⟨true, "B", "2"⟩, ⟨false, "C", "3"⟩] ∧
      (2 ≤ ([⟨false, "A", "9"⟩, ⟨true, "B", "2"⟩, ⟨false, "C", "3"⟩] :
          List EnvironmentVariable).length ∧
      (∀ (i : Nat) (o : EnvironmentVariablesObject), ([⟨"A", "1", false, ""⟩, ⟨"B", "2", true, ""⟩] :
          List EnvironmentVariablesObject)[i]? = some o →
        ∃ x : EnvironmentVariable, ([⟨false, "A", "9"⟩, ⟨true, "B", "2"⟩, ⟨false, "C", "3"⟩] :
          List EnvironmentVariable)[i]? = some x ∧ x.Key = o.Key) ∧
      (∀ (i : Nat) (o : EnvironmentVariablesObject), ([⟨"A", "1", false, ""⟩, ⟨"B", "2", true, ""⟩] :
          List EnvironmentVariablesObject)[i]? = some o → o.Key ≠ "A" →
        (∀ line ∈ ["C=3"], HasPrefixHash line = false → (Split line)[0]? ≠ some o.Key) →
        ([⟨false, "A", "9"⟩, ⟨true, "B", "2"⟩, ⟨false, "C", "3"⟩] :
          List EnvironmentVariable)[i]? = some (toInput o))) :=
  ⟨by decide,
    C4_order_preserved [⟨"A", "1", false, ""⟩, ⟨"B", "2", true, ""⟩] "A" "9" ["C=3"]
      true false true [⟨false, "A", "9"⟩, ⟨true, "B", "2"⟩, ⟨false, "C", "3"⟩] (by decide)⟩

/-- C5. Non-empty records: if every existing record has a non-empty key and a non-empty value,
then whenever `VariableModify` completes, every record of the set it sends to the store has a
non-empty key and a non-empty value; the inline candidate may have an empty key or value. -/
theorem C5_records_nonempty (old : List EnvironmentVariablesObject) (k v : String)
    (vars : List String) (f m u : Bool) (r : List EnvironmentVariable)
    (hold : ∀ o ∈ old, o.Key ≠ "" ∧ o.Value ≠ "")
    (h : VariableModify old k v vars f m u = some r) :
    ∀ x ∈ r, x.Key ≠ "" ∧ x.Value ≠ "" := by
  refine VariableModify_invariant (fun new => ∀ x ∈ new, x.Key ≠ "" ∧ x.Value ≠ "") h ?_ ?_
  · intro x hx
    obtain ⟨o, ho, rfl⟩ := List.mem_map.1 hx
    exact hold o ho
  · intro key value new new' hk hv _ hP he
    exact nonempty_edit hold hk hv hP he

/-- Witness of C5: an inline candidate with an empty value and the file lines `=v`, `B=` and
`C=3` on an existing set with one record: only `C` is added. -/
theorem C5_records_nonempty_witness :
    (∀ o ∈ ([⟨"A", "1", false, ""⟩] : List EnvironmentVariablesObject),
        o.Key ≠ "" ∧ o.Value ≠ "") ∧
      VariableModify [⟨"A", "1", false, ""⟩] "K" "" ["=v", "B=", "C=3"] true false true
        = some [⟨false, "A", "1"⟩, ⟨false, "C", "3"⟩] ∧
      ∀ x ∈ ([⟨false, "A", "1"⟩, ⟨false, "C", "3"⟩] : List EnvironmentVariable),
        x.Key ≠ "" ∧ x.Value ≠ "" :=
  ⟨by decide, by decide,
    C5_records_nonempty [⟨"A", "1", false, ""⟩] "K" "" ["=v", "B=", "C=3"] true false true
      [⟨false, "A", "1"⟩, ⟨false, "C", "3"⟩] (by decide) (by decide)⟩

/-- C6, refuted as stated. The lines `A=` and `A=3` are no comments and have the same key `A`;
the first is rejected for its empty value, so its key is not recorded, and the second is applied:
removing the second line changes the result. -/
theorem C6_counterexample :
    HasPrefixHash "A=" = false ∧ HasPrefixHash "A=3" = false ∧
      (Split "A=")[0]? = (Split "A=3")[0]? ∧
      VariableModify [] "" "" ["A=", "A=3"] true false false = some [⟨false, "A", "3"⟩] ∧
      VariableModify [] "" "" (List.eraseIdx ["A=", "A=3"] 1) true false false = some [] ∧
      VariableModify [] "" "" ["A=", "A=3"] true false false
        ≠ VariableModify [] "" "" (List.eraseIdx ["A=", "A=3"] 1) true false false := by
  decide

/-- C6, amended. File dedup, first occurrence wins: when two lines at positions `i < j`, no
comments, have the same key (the first piece of the split at `=`), the line at `i` has a non-empty
parsed value (the second piece of its split), and the line at `j` contains `=`, then the line at
`j` is rejected: the outcome of `VariableModify` is the outcome for the list with line `j`
removed. -/
theorem C6_file_dedup (old : List EnvironmentVariablesObject) (k v : String)
    (lines : List String) (f m u : Bool) (i j : Nat) (li lj value : String)
    (hij : i < j) (hli : lines[i]? = some li) (hlj : lines[j]? = some lj)
    (hci : HasPrefixHash li = false) (hcj : HasPrefixHash lj = false)
    (hkey : (Split li)[0]? = (Split lj)[0]?)
    (hvi : (Split li)[1]? = some value) (hv : value ≠ "") (heq : '=' ∈ lj.data) :
    VariableModify old k v lines f m u
      = VariableModify old k v (lines.eraseIdx j) f m u := by
  have _ := hcj
  apply VariableModify_congr_lines
  intro K new
  apply fileLoop_eraseIdx lines j lj hlj
  intro s hs
  have hlen : 0 < (Split li).length := by
    have := (List.getElem?_eq_some.1 hvi).1
    omega
  have h0 : (Split li)[0]? = some (Split li)[0] := List.getElem?_eq_getElem hlen
  have hmem : li ∈ lines.take j :=
    List.getElem?_mem (by rw [List.getElem?_take_of_lt hij]; exact hli)
  have hQ := settled_after K old u m hci h0 hvi hv
    (lines.take j) ⟨[], new⟩ s hmem hs
  exact fileStep_settled hQ (by rw [← hkey]; exact h0) heq

/-- Witness of C6 (scenario 3): existing empty, lines `A=1`, `B=2`, `A=3`: the third line is
rejected, the result is `A = 1`, `B = 2`. -/
theorem C6_file_dedup_witness :
    VariableModify [] "" "" ["A=1", "B=2", "A=3"] true false false
        = some [⟨false, "A", "1"⟩, ⟨false, "B", "2"⟩] ∧
      VariableModify [] "" "" ["A=1", "B=2", "A=3"] true false false
        = VariableModify [] "" "" (List.eraseIdx ["A=1", "B=2", "A=3"] 2) true false false :=
  ⟨by decide,
    C6_file_dedup [] "" "" ["A=1", "B=2", "A=3"] true false false 0 2 "A=1" "A=3" "1"
      (by decide) rfl rfl (by decide) (by decide) (by decide) (by decide) (by decide)
      (by decide)⟩

/-- C7. Non-destructive rejection: a line that is empty, a comment, of the form `=value` or of
the form `KEY=` can be removed from the list without changing the outcome of `VariableModify`:
the other lines are applied as if it were not there. -/
theorem C7_rejection_nondestructive (old : List EnvironmentVariablesObject) (k v : String)
    (lines : List String) (f m u : Bool) (j : Nat) (line : String)
    (hj : lines[j]? = some line) (hrej : RejectedForm line) :
    VariableModify old k v lines f m u
      = VariableModify old k v (lines.eraseIdx j) f m u := by
  apply VariableModify_congr_lines
  intro K new
  exact fileLoop_eraseIdx lines j line hj _ (fun s _ => fileStep_rejected hrej s)

/-- Witness of C7 (scenario 5): the single line `=value` leaves the set unchanged; and in
`=value`, `B=2` exactly `B` is applied. -/
theorem C7_rejection_nondestructive_witness :
    VariableModify [⟨"A", "1", false, ""⟩] "" "" ["=value"] true false true
        = some [⟨false, "A", "1"⟩] ∧
      VariableModify [⟨"A", "1", false, ""⟩] "" "" ["=value", "B=2"] true false true
        = VariableModify [⟨"A", "1", false, ""⟩] "" ""
            (List.eraseIdx ["=value", "B=2"] 0) true false true :=
  ⟨by decide,
    C7_rejection_nondestructive [⟨"A", "1", false, ""⟩] "" "" ["=value", "B=2"] true false true
      0 "=value" rfl (Or.inr (Or.inr (Or.inl ⟨"value", rfl⟩)))⟩

/-- C1, the code at the failing input. Existing keys are pairwise distinct, the inline candidate
appends the new key `K`, and the file line `K=W` is appended as well, since the key list the file
is checked against has the existing keys only: the set sent to the store has the key `K` twice. -/
theorem C1_duplicate_key_at_failing_input :
    (List.map EnvironmentVariablesObject.Key [⟨"A", "1", false, ""⟩]).Nodup ∧
      VariableModify [⟨"A", "1", false, ""⟩] "K" "V" ["K=W"] true false false
        = some [⟨false, "A", "1"⟩, ⟨false, "K", "V"⟩, ⟨false, "K", "W"⟩] ∧
      ¬ (keys [⟨false, "A", "1"⟩, ⟨false, "K", "V"⟩, ⟨false, "K", "W"⟩]).Nodup := by
  decide

/-- C8, the code at the failing input. The value parsed from `K=a=b` is the text between the
first and the second `=`, not the whole text after the first `=`: the record added is `K = a`. -/
theorem C8_value_cut_at_second_eq :
    Split "K=a=b" = ["K", "a", "b"] ∧
      VariableModify [] "" "" ["K=a=b"] true false false = some [⟨false, "K", "a"⟩] ∧
      VariableModify [] "" "" ["K=a=b"] true false false ≠ some [⟨false, "K", "a=b"⟩] := by
  decide

/-- C9, the code at the failing input. On the line `FOO`, which has no `=`, the index `[1]` of
the split is out of range: `addVariablesFromFile` does not return a set, and the line `A=1`
after it is not processed, while without the line `FOO` it is. -/
theorem C9_line_without_eq_stops_the_pass :
    Split "FOO" = ["FOO"] ∧
      addVariablesFromFile ["FOO", "A=1"] [] [] [] false false = none ∧
      addVariablesFromFile ["A=1"] [] [] [] false false = some [⟨false, "A", "1"⟩] := by
  decide

/-- C10, the code at the failing input. Existing empty, inline candidate `(K, V)`, file line
`K=W`. One pass appends `K` twice. A file-only pass on the result of the inline-only pass
replaces the value when update is allowed and rejects the line when it is not. -/
theorem C10_one_pass_differs_from_two :
    VariableModify [] "K" "V" ["K=W"] true false true
        = some [⟨false, "K", "V"⟩, ⟨false, "K", "W"⟩] ∧
      VariableModify [] "K" "V" [] false false true = some [⟨false, "K", "V"⟩] ∧
      VariableModify [⟨"K", "V", false, ""⟩] "" "" ["K=W"] true false true
        = some [⟨false, "K", "W"⟩] ∧
      VariableModify [] "K" "V" ["K=W"] true false false
        = some [⟨false, "K", "V"⟩, ⟨false, "K", "W"⟩] ∧
      VariableModify [⟨"K", "V", false, ""⟩] "" "" ["K=W"] true false false
        = some [⟨false, "K", "V"⟩] := by
  decide

/-! ## Lemmas on the export and the presenter -/

theorem writeVarToFile_eq (objs : List EnvironmentVariablesObject) (variableKey : String) :
    ∀ file : String,
      writeVarToFile objs variableKey file = file ++ exportText variableKey objs := by
  induction objs with
  | nil => intro file; simp [writeVarToFile, exportText]
  | cons o rest ih =>
    intro file
    have hstep : writeVarToFile (o :: rest) variableKey file
        = writeVarToFile rest variableKey
            (if o.Key = variableKey then file ++ ("\n" ++ o.Key ++ "=" ++ o.Value)
             else if variableKey = "" then file ++ ("\n" ++ o.Key ++ "=" ++ o.Value)
             else file) := by
      simp [writeVarToFile]
    rw [hstep, ih]
    by_cases h1 : o.Key = variableKey
    · simp [exportText, h1, String.append_assoc]
    · by_cases h2 : variableKey = ""
      · simp [exportText, h1, h2, String.append_assoc]
      · simp [exportText, h1, h2]

theorem exportText_congr (variableKey : String) :
    ∀ objs objs' : List EnvironmentVariablesObject,
      objs.map (fun o => (o.Key, o.Value)) = objs'.map (fun o => (o.Key, o.Value)) →
      exportText variableKey objs = exportText variableKey objs' := by
  intro objs
  induction objs with
  | nil =>
    intro objs' h
    cases objs' with
    | nil => rfl
    | cons o' rest' => simp at h
  | cons o rest ih =>
    intro objs' h
    cases objs' with
    | nil => simp at h
    | cons o' rest' =>
      simp only [List.map_cons, List.cons.injEq, Prod.mk.injEq] at h
      obtain ⟨⟨hk, hv⟩, hrest⟩ := h
      simp only [exportText, hk, hv, ih rest' hrest]

theorem matching_nil_of_key {key : String} {o : EnvironmentVariablesObject}
    {t : List EnvironmentVariablesObject} (hk : o.Key = key) (hne : o.Key ≠ "")
    (hd : ((o :: t).map EnvironmentVariablesObject.Key).Nodup) : matching key t = [] := by
  rw [List.map_cons, List.nodup_cons] at hd
  unfold matching
  rw [List.filter_eq_nil_iff]
  intro a ha hp
  rcases of_decide_eq_true hp with h | h
  · exact hne (hk.trans h)
  · exact hd.1 (List.mem_map.2 ⟨a, ha, h.trans hk.symm⟩)

theorem listLoop_eq (key : String) : ∀ (objs : List EnvironmentVariablesObject) (st : ListState),
    (∀ o ∈ objs, o.Key ≠ "") → (objs.map EnvironmentVariablesObject.Key).Nodup →
    listLoop key objs st
      = ⟨st.nbEnvVarFound + (matching key objs).length,
          st.rows ++ rowsFrom st.nbEnvVarFound (matching key objs)⟩ := by
  intro objs
  induction objs with
  | nil => intro st _ _; simp [listLoop, matching, rowsFrom]
  | cons o t ih =>
    intro st hne hd
    have hne' : ∀ x ∈ t, x.Key ≠ "" := fun x hx => hne x (List.mem_cons_of_mem _ hx)
    have hd' : (t.map EnvironmentVariablesObject.Key).Nodup := by
      rw [List.map_cons, List.nodup_cons] at hd; exact hd.2
    by_cases h1 : o.Key = key
    · have hnil := matching_nil_of_key h1 (hne o (List.mem_cons_self _ _)) hd
      have hm : matching key (o :: t) = [o] := by
        have : matching key (o :: t) = o :: matching key t := by
          simp [matching, h1]
        rw [this, hnil]
      rw [hm]
      simp [listLoop, h1, rowsFrom]
    · by_cases h2 : key = ""
      · have hm : matching key (o :: t) = o :: matching key t := by
          simp [matching, h2]
        rw [hm, listLoop, if_neg h1, if_pos h2, ih _ hne' hd']
        simp only [rowsFrom, List.length_cons, List.append_assoc, List.singleton_append]
        congr 1
        omega
      · have hm : matching key (o :: t) = matching key t := by
          simp [matching, h1, h2]
        rw [hm, listLoop, if_neg h1, if_neg h2, ih _ hne' hd']

theorem rowsFrom_length (ms : List EnvironmentVariablesObject) :
    ∀ n : Nat, (rowsFrom n ms).length = ms.length := by
  induction ms with
  | nil => intro n; rfl
  | cons o t ih => intro n; simp [rowsFrom, ih]

theorem rowsFrom_getElem? (ms : List EnvironmentVariablesObject) :
    ∀ (n j : Nat) (o : EnvironmentVariablesObject), ms[j]? = some o →
      (rowsFrom n ms)[j]? = some (tableRow (n + j + 1) o) := by
  induction ms with
  | nil => intro n j o h; simp at h
  | cons a t ih =>
    intro n j o h
    cases j with
    | zero =>
      simp only [List.getElem?_cons_zero, Option.some.injEq] at h
      simp [rowsFrom, h]
    | succ j =>
      simp only [List.getElem?_cons_succ] at h
      have := ih (n + 1) j o h
      simp only [rowsFrom, List.getElem?_cons_succ, this]
      congr 2
      omega

/-- C12. Export format: `writeVarToFile` leaves the prior content of the file as a prefix and
appends, for each record in set order whose key is the filter (every record when the filter is
empty), a line break followed by `KEY=VALUE` with the full value; two sets with the same keys and
values, whatever their secret flags, give the same file. -/
theorem C12_export_format (objs : List EnvironmentVariablesObject) (variableKey file : String) :
    writeVarToFile objs variableKey file = file ++ exportText variableKey objs ∧
      ∀ objs' : List EnvironmentVariablesObject,
        objs'.map (fun o => (o.Key, o.Value)) = objs.map (fun o => (o.Key, o.Value)) →
        writeVarToFile objs' variableKey file = writeVarToFile objs variableKey file := by
  refine ⟨writeVarToFile_eq objs variableKey file, ?_⟩
  intro objs' h
  rw [writeVarToFile_eq, writeVarToFile_eq, exportText_congr variableKey objs' objs h]

/-- Witness of C12: two records, filter `B`, prior content `X=0`: the line of `B` is appended;
the set with the secret flags flipped gives the same file. -/
theorem C12_export_format_witness :
    writeVarToFile [⟨"A", "1", false, ""⟩, ⟨"B", "2=3", true, ""⟩] "B" "X=0" = "X=0\nB=2=3" ∧
      writeVarToFile [⟨"A", "1", true, ""⟩, ⟨"B", "2=3", false, ""⟩] "B" "X=0"
        = writeVarToFile [⟨"A", "1", false, ""⟩, ⟨"B", "2=3", true, ""⟩] "B" "X=0" :=
  ⟨by decide,
    (C12_export_format [⟨"A", "1", false, ""⟩, ⟨"B", "2=3", true, ""⟩] "B" "X=0").2
      [⟨"A", "1", true, ""⟩, ⟨"B", "2=3", false, ""⟩] (by decide)⟩

/-- C13, the code at the failing input. The sets `S = x` and `S = y`, both secret, agree on keys,
secret flags and the values of non-secret records, and the exported texts differ: the value of a
secret record is written in full, while the message printed says that secret variables were saved
only with a key. -/
theorem C13_secret_value_is_exported :
    writeVarToFile [⟨"S", "x", true, ""⟩] "" "" = "\nS=x" ∧
      writeVarToFile [⟨"S", "y", true, ""⟩] "" "" = "\nS=y" ∧
      writeVarToFile [⟨"S", "x", true, ""⟩] "" "" ≠ writeVarToFile [⟨"S", "y", true, ""⟩] "" "" ∧
      writeVarToFileMessage ".env"
        = "\nThe following environment variables were saved to the file .env,"
          ++ "\nsecret environment variables were saved only with a key:\n" := by
  decide

/-- C14. Presenter projection: for a set whose keys are non-empty and pairwise distinct, the rows
`VariableList` adds are the rows of the records the filter selects, in set order, the row at
position `j` (from 0) being `(j + 1, key, value, secret)`; `No variables found` is the outcome
exactly when no record is selected, and the error returned is `nil` in both outcomes. -/
theorem C14_presenter_projection (objs : List EnvironmentVariablesObject)
    (variableKey : String) (hne : ∀ o ∈ objs, o.Key ≠ "")
    (hd : (objs.map EnvironmentVariablesObject.Key).Nodup) :
    (VariableList objs variableKey).rows.length = (matching variableKey objs).length ∧
      (∀ (j : Nat) (o : EnvironmentVariablesObject), (matching variableKey objs)[j]? = some o →
        (VariableList objs variableKey).rows[j]?
          = some [Itoa (j + 1), o.Key, o.Value, FormatBool o.IsSecret]) ∧
      ((VariableList objs variableKey).noVariablesFound = true
        ↔ matching variableKey objs = []) ∧
      (VariableList objs variableKey).err = none := by
  have hloop := listLoop_eq variableKey objs ⟨0, []⟩ hne hd
  simp only [Nat.zero_add, List.nil_append] at hloop
  have hrows : (VariableList objs variableKey).rows
      = rowsFrom 0 (matching variableKey objs) := by
    unfold VariableList
    simp only [hloop]
    split <;> rfl
  refine ⟨?_, ?_, ?_, ?_⟩
  · rw [hrows, rowsFrom_length]
  · intro j o hj
    rw [hrows, rowsFrom_getElem? _ 0 j o hj, Nat.zero_add]
    rfl
  · unfold VariableList
    simp only [hloop]
    split
    · rename_i h0
      simp only [true_iff]
      exact List.length_eq_zero.1 h0
    · rename_i h0
      simp only [Bool.false_eq_true, false_iff]
      exact fun e => h0 (by rw [e]; rfl)
  · unfold VariableList
    simp only
    split <;> rfl

/-- Witness of C14: three records and the filter `B` give the one row `(1, B, 2, true)`; the
filter `Z` selects nothing and gives `No variables found` without an error. -/
theorem C14_presenter_projection_witness :
    (VariableList [⟨"A", "1", false, ""⟩, ⟨"B", "2", true, ""⟩, ⟨"C", "3", false, ""⟩] "B").rows
        = [["1", "B", "2", "true"]] ∧
      VariableList [⟨"A", "1", false, ""⟩, ⟨"B", "2", true, ""⟩, ⟨"C", "3", false, ""⟩] "Z"
        = ⟨[], true, none⟩ ∧
      ((VariableList [⟨"A", "1", false, ""⟩, ⟨"B", "2", true, ""⟩] "").noVariablesFound = true
        ↔ matching "" [⟨"A", "1", false, ""⟩, ⟨"B", "2", true, ""⟩] = []) :=
  ⟨by decide, by decide,
    (C14_presenter_projection [⟨"A", "1", false, ""⟩, ⟨"B", "2", true, ""⟩] ""
      (by decide) (by decide)).2.2.1⟩

/-! ## Lemmas for the inline rule, key uniqueness and index safety -/

theorem containsLoop_first (v : String) : ∀ (l : List String) (i : Nat),
    (containsLoop v l i).1 = true →
    ∀ j, j < (containsLoop v l i).2 - i → l[j]? ≠ some v := by
  intro l
  induction l with
  | nil => intro i h; simp [containsLoop] at h
  | cons s t ih =>
    intro i h j hj
    by_cases hv : v = s
    · simp [containsLoop, hv] at hj
    · simp only [containsLoop, hv, if_false] at h hj
      have hle := ((containsLoop_spec v t (i + 1)).2 h).1
      cases j with
      | zero =>
        simp only [List.getElem?_cons_zero, ne_eq, Option.some.injEq]
        exact fun e => hv e.symm
      | succ j =>
        rw [List.getElem?_cons_succ]
        exact ih (i + 1) h j (by omega)

theorem contains_first (l : List String) (v : String) (h : (contains l v).1 = true) :
    ∀ j, j < (contains l v).2 → l[j]? ≠ some v := by
  intro j hj
  exact containsLoop_first v l 0 h j (by simpa [contains] using hj)

theorem set_same {α : Type} (l : List α) (n : Nat) (a : α) (h : l[n]? = some a) :
    l.set n a = l := by
  apply List.ext_getElem?
  intro j
  rw [List.getElem?_set]
  by_cases hnj : n = j
  · subst hnj
    rw [if_pos rfl, if_pos (List.getElem?_eq_some.1 h).1, h]
  · rw [if_neg hnj]

theorem VariableModify_some {old : List EnvironmentVariablesObject} {k v : String}
    {vars : List String} {f m u : Bool} {r : List EnvironmentVariable}
    (h : VariableModify old k v vars f m u = some r) :
    ∃ new1 : List EnvironmentVariable,
      (new1 = old.map toInput ∨
        (k ≠ "" ∧ v ≠ "" ∧
          Edit (old.map EnvironmentVariablesObject.Key) old u m k v (old.map toInput) new1)) ∧
      ((f = false ∧ r = new1) ∨
        (f = true ∧ ∃ st : FileState,
          fileLoop (old.map EnvironmentVariablesObject.Key) old u m vars ⟨[], new1⟩ = some st ∧
            st.newEnvironmentVariables = r)) := by
  unfold VariableModify at h
  simp only [seed_eq] at h
  split at h
  · exact Option.noConfusion h
  rename_i new1 hflag
  refine ⟨new1, ?_, ?_⟩
  · split at hflag
    · rename_i hkv
      rcases addVariableFromFlag_cases hflag with hr | hr
      · exact Or.inl hr
      · exact Or.inr ⟨hkv.1, hkv.2, hr⟩
    · exact Or.inl (Option.some.inj hflag).symm
  · split at h
    · rename_i hf
      right
      refine ⟨hf, ?_⟩
      unfold addVariablesFromFile at h
      cases hl : fileLoop (old.map EnvironmentVariablesObject.Key) old u m vars ⟨[], new1⟩ with
      | none => rw [hl] at h; exact Option.noConfusion h
      | some st =>
        rw [hl] at h
        exact ⟨st, rfl, by simpa using h⟩
    · rename_i hf
      left
      exact ⟨by simpa using hf, (Option.some.inj h).symm⟩

/-- The update branch leaves the keys as they are, when the keys start with the existing keys. -/
theorem keys_update {old : List EnvironmentVariablesObject} {key value : String} {sec : Bool}
    {new : List EnvironmentVariable} {A : List String} {o : EnvironmentVariablesObject}
    (hK : keys new = old.map EnvironmentVariablesObject.Key ++ A)
    (hexist : (contains (old.map EnvironmentVariablesObject.Key) key).1 = true)
    (hold : old[(contains (old.map EnvironmentVariablesObject.Key) key).2]? = some o) :
    keys (new.set (contains (old.map EnvironmentVariablesObject.Key) key).2
      ⟨sec, o.Key, value⟩) = keys new := by
  have hk := key_at_found hexist hold
  have hget := contains_get _ _ hexist
  have hlt := contains_lt _ _ hexist
  unfold keys
  rw [List.map_set]
  apply set_same
  show (keys new)[_]? = _
  rw [hK, List.getElem?_append_left hlt, hget, hk]

theorem keysInv_step {old : List EnvironmentVariablesObject} {u m : Bool}
    {st st' : FileState} {line : String}
    (hI : KeysInv (old.map EnvironmentVariablesObject.Key) st)
    (h : fileStep (old.map EnvironmentVariablesObject.Key) old u m st line = some st') :
    KeysInv (old.map EnvironmentVariablesObject.Key) st' := by
  rcases fileStep_cases h with hr | ⟨key, value, -, hnot, hkeys, he⟩
  · rw [hr]; exact hI
  · obtain ⟨A, hK, hsub, hnd⟩ := hI
    generalize hnew' : st'.newEnvironmentVariables = new' at he
    cases he with
    | update o hexist hupd hold hlt =>
      refine ⟨A, ?_, ?_, hnd⟩
      · rw [hnew', keys_update hK hexist hold]; exact hK
      · intro a ha
        rw [hkeys]
        exact List.mem_append_left _ (hsub a ha)
    | append hexist =>
      have hnotK : key ∉ old.map EnvironmentVariablesObject.Key :=
        (contains_fst_false_iff _ _).1 hexist
      have hnotA : key ∉ A := fun ha => hnot (hsub key ha)
      refine ⟨A ++ [key], ?_, ?_, ?_⟩
      · rw [hnew']
        simp only [keys, List.map_append, List.map_cons, List.map_nil]
        rw [← List.append_assoc]
        congr 1
      · intro a ha
        rw [hkeys]
        rcases List.mem_append.1 ha with ha | ha
        · exact List.mem_append_left _ (hsub a ha)
        · exact List.mem_append_right _ ha
      · rw [← List.append_assoc]
        refine List.Nodup.append hnd (List.nodup_singleton _) ?_
        intro a ha hb
        rw [List.mem_singleton] at hb
        subst hb
        rcases List.mem_append.1 ha with ha | ha
        · exact hnotK ha
        · exact hnotA ha

theorem edit_length {K : List String} {old : List EnvironmentVariablesObject} {u m : Bool}
    {key value : String} {new new' : List EnvironmentVariable}
    (he : Edit K old u m key value new new') : new.length ≤ new'.length := by
  cases he with
  | update o hexist hupd hold hlt => simp
  | append hexist => simp

theorem addVariableFromFlag_progress (old : List EnvironmentVariablesObject)
    (new : List EnvironmentVariable) (k v : String) (u m : Bool)
    (hlen : old.length ≤ new.length) :
    ∃ r, addVariableFromFlag (old.map EnvironmentVariablesObject.Key) old new k v u m = some r ∧
      old.length ≤ r.length := by
  have hlenr : ∀ r, addVariableFromFlag (old.map EnvironmentVariablesObject.Key) old new k v u m
      = some r → old.length ≤ r.length := by
    intro r hr
    rcases addVariableFromFlag_cases hr with h | h
    · rw [h]; exact hlen
    · exact Nat.le_trans hlen (edit_length h)
  cases hres : addVariableFromFlag (old.map EnvironmentVariablesObject.Key) old new k v u m with
  | some r => exact ⟨r, rfl, hlenr r hres⟩
  | none =>
    exfalso
    unfold addVariableFromFlag at hres
    simp only at hres
    split at hres
    · exact Option.noConfusion hres
    · split at hres
      · rename_i h2
        simp only [Bool.and_eq_true] at h2
        have hlt := contains_lt _ _ h2.1
        rw [List.length_map] at hlt
        rw [List.getElem?_eq_getElem hlt] at hres
        simp only at hres
        rw [if_pos (by omega)] at hres
        exact Option.noConfusion hres
      · exact Option.noConfusion hres

theorem fileStep_progress (old : List EnvironmentVariablesObject) (u m : Bool)
    (st : FileState) (line : String) (hline : WellFormedLine line)
    (hlen : old.length ≤ st.newEnvironmentVariables.length) :
    ∃ st', fileStep (old.map EnvironmentVariablesObject.Key) old u m st line = some st' ∧
      old.length ≤ st'.newEnvironmentVariables.length := by
  have hlenr : ∀ st', fileStep (old.map EnvironmentVariablesObject.Key) old u m st line
      = some st' → old.length ≤ st'.newEnvironmentVariables.length := by
    intro st' hs
    rcases fileStep_cases hs with h | ⟨key, value, -, -, -, he⟩
    · rw [h]; exact hlen
    · exact Nat.le_trans hlen (edit_length he)
  cases hres : fileStep (old.map EnvironmentVariablesObject.Key) old u m st line with
  | some st' => exact ⟨st', rfl, hlenr st' hres⟩
  | none =>
    exfalso
    unfold fileStep at hres
    split at hres
    · exact Option.noConfusion hres
    rename_i hc
    split at hres
    · exact Option.noConfusion hres
    rename_i he
    obtain ⟨value, h1⟩ := Split_snd_of_mem line (hline he (by simpa using hc))
    have hlen0 : 0 < (Split line).length := by
      have := (List.getElem?_eq_some.1 h1).1
      omega
    rw [List.getElem?_eq_getElem hlen0, h1] at hres
    simp only at hres
    split at hres
    · exact Option.noConfusion hres
    split at hres
    · exact Option.noConfusion hres
    split at hres
    · exact Option.noConfusion hres
    split at hres
    · rename_i hex
      split at hres
      · exact Option.noConfusion hres
      have hlt := contains_lt _ _ hex
      rw [List.length_map] at hlt
      rw [List.getElem?_eq_getElem hlt] at hres
      simp only at hres
      rw [if_pos (by omega)] at hres
      exact Option.noConfusion hres
    · exact Option.noConfusion hres

theorem fileLoop_progress (old : List EnvironmentVariablesObject) (u m : Bool) :
    ∀ (vars : List String) (st : FileState), (∀ line ∈ vars, WellFormedLine line) →
      old.length ≤ st.newEnvironmentVariables.length →
      ∃ st', fileLoop (old.map EnvironmentVariablesObject.Key) old u m vars st = some st' := by
  intro vars
  induction vars with
  | nil => intro st _ _; exact ⟨st, rfl⟩
  | cons line rest ih =>
    intro st hl hlen
    obtain ⟨s1, hs1, hlen1⟩ :=
      fileStep_progress old u m st line (hl line (List.mem_cons_self _ _)) hlen
    obtain ⟨s2, hs2⟩ := ih s1 (fun l hm => hl l (List.mem_cons_of_mem _ hm)) hlen1
    exact ⟨s2, by rw [fileLoop, hs1]; exact hs2⟩

/-- C11. The inline candidate follows the three-way rule: on the seeded set,
`addVariableFromFlag` returns (a) the existing records followed by the new record
`(k, v, secretFlag)` when `k` is no existing key, (b) the existing records unchanged when `k` is
an existing key and update is not allowed, (c) when `k` is an existing key and update is allowed,
the existing records with the first record of key `k`, at position `n`, replaced by
`(k, v, secretFlag OR its previous secret flag)`. -/
theorem C11_inline_three_way (old : List EnvironmentVariablesObject) (k v : String)
    (u m : Bool) :
    (k ∉ old.map EnvironmentVariablesObject.Key →
      addVariableFromFlag (seed old).2 old (seed old).1 k v u m
        = some (old.map toInput ++ [⟨m, k, v⟩])) ∧
    (k ∈ old.map EnvironmentVariablesObject.Key → u = false →
      addVariableFromFlag (seed old).2 old (seed old).1 k v u m = some (old.map toInput)) ∧
    (k ∈ old.map EnvironmentVariablesObject.Key → u = true →
      ∃ (n : Nat) (o : EnvironmentVariablesObject), old[n]? = some o ∧ o.Key = k ∧
        (∀ (j : Nat) (o' : EnvironmentVariablesObject),
          j < n → old[j]? = some o' → o'.Key ≠ k) ∧
        addVariableFromFlag (seed old).2 old (seed old).1 k v u m
          = some ((old.map toInput).set n ⟨m || o.IsSecret, k, v⟩)) := by
  simp only [seed_eq]
  refine ⟨?_, ?_, ?_⟩
  · intro hk
    have hex := (contains_fst_false_iff _ _).2 hk
    simp [addVariableFromFlag, hex]
  · intro hk hu
    have hex := (contains_fst_iff _ _).2 hk
    simp [addVariableFromFlag, hex, hu]
  · intro hk hu
    have hex := (contains_fst_iff _ _).2 hk
    have hlt := contains_lt _ _ hex
    rw [List.length_map] at hlt
    have hget := List.getElem?_eq_getElem hlt
    have hkey := key_at_found hex hget
    refine ⟨_, _, hget, hkey, ?_, ?_⟩
    · intro j o' hj ho' hk'
      refine contains_first _ _ hex j hj ?_
      rw [List.getElem?_map, ho', ← hk']
      rfl
    · unfold addVariableFromFlag
      simp only [hex, hu, hget, Bool.not_true, Bool.and_false, Bool.and_self, if_true,
        Bool.false_eq_true, if_false, List.length_map, hlt]
      rw [hkey]
      cases m <;> simp

/-- Witness of C11 (scenarios 2 and 4): `K1 = V1` with the candidate `(K1, V2)`, update allowed,
secret flag off, gives `K1 = V2`, not secret; the secret `S = x` with `(S, y)` gives `S = y`,
still secret. -/
theorem C11_inline_three_way_witness :
    addVariableFromFlag (seed [⟨"K1", "V1", false, ""⟩]).2 [⟨"K1", "V1", false, ""⟩]
        (seed [⟨"K1", "V1", false, ""⟩]).1 "K1" "V2" true false = some [⟨false, "K1", "V2"⟩] ∧
      addVariableFromFlag (seed [⟨"S", "x", true, ""⟩]).2 [⟨"S", "x", true, ""⟩]
        (seed [⟨"S", "x", true, ""⟩]).1 "S" "y" true false = some [⟨true, "S", "y"⟩] ∧
      ∃ (n : Nat) (o : EnvironmentVariablesObject),
        ([⟨"S", "x", true, ""⟩] : List EnvironmentVariablesObject)[n]? = some o ∧ o.Key = "S" ∧
        (∀ (j : Nat) (o' : EnvironmentVariablesObject), j < n →
          ([⟨"S", "x", true, ""⟩] : List EnvironmentVariablesObject)[j]? = some o' →
          o'.Key ≠ "S") ∧
        addVariableFromFlag (seed [⟨"S", "x", true, ""⟩]).2 [⟨"S", "x", true, ""⟩]
            (seed [⟨"S", "x", true, ""⟩]).1 "S" "y" true false
          = some ((List.map toInput [⟨"S", "x", true, ""⟩]).set n
              ⟨false || o.IsSecret, "S", "y"⟩) :=
  ⟨by decide, by decide,
    (C11_inline_three_way [⟨"S", "x", true, ""⟩] "S" "y" true false).2.2 (by decide) rfl⟩

/-- C15. Key uniqueness when the inline candidate adds no new key: if the existing keys are
pairwise distinct and the inline candidate is absent or rejected (empty key or empty value) or has
an existing key, then whenever `VariableModify` completes, the keys of the set it builds are
pairwise distinct. -/
theorem C15_keys_distinct_without_new_inline_key (old : List EnvironmentVariablesObject)
    (k v : String) (vars : List String) (f m u : Bool) (r : List EnvironmentVariable)
    (hd : (old.map EnvironmentVariablesObject.Key).Nodup)
    (hk : k = "" ∨ v = "" ∨ k ∈ old.map EnvironmentVariablesObject.Key)
    (h : VariableModify old k v vars f m u = some r) :
    (keys r).Nodup := by
  obtain ⟨new1, hflag, hfile⟩ := VariableModify_some h
  have hseed : keys (old.map toInput) = old.map EnvironmentVariablesObject.Key ++ [] := by
    simp [keys, toInput]
  have hkeys1 : keys new1 = old.map EnvironmentVariablesObject.Key ++ [] := by
    rcases hflag with hr | ⟨hk1, hv1, he⟩
    · rw [hr]; exact hseed
    · cases he with
      | update o hexist hupd hold hlt =>
        rw [keys_update hseed hexist hold]; exact hseed
      | append hexist =>
        exfalso
        rcases hk with hk | hk | hk
        · exact hk1 hk
        · exact hv1 hk
        · exact (contains_fst_false_iff _ _).1 hexist hk
  rcases hfile with ⟨-, hr⟩ | ⟨-, st, hloop, hr⟩
  · rw [hr, hkeys1, List.append_nil]; exact hd
  · have hI0 : KeysInv (old.map EnvironmentVariablesObject.Key) ⟨[], new1⟩ :=
      ⟨[], hkeys1, by simp, by rw [List.append_nil]; exact hd⟩
    obtain ⟨A, hA, -, hnd⟩ :=
      fileLoop_invariant (KeysInv (old.map EnvironmentVariablesObject.Key)) vars
        (fun _ _ _ _ hI hs => keysInv_step hI hs) _ _ hI0 hloop
    rw [← hr, hA]; exact hnd

/-- Witness of C15: the inline candidate updates the existing key `A`, the file sets `B` twice
and `A` once more: the result has the keys `A`, `B`. -/
theorem C15_keys_distinct_without_new_inline_key_witness :
    (List.map EnvironmentVariablesObject.Key [⟨"A", "1", false, ""⟩]).Nodup ∧
      VariableModify [⟨"A", "1", false, ""⟩] "A" "2" ["B=1", "A=3", "B=4"] true false true
        = some [⟨false, "A", "3"⟩, ⟨false, "B", "1"⟩] ∧
      (keys [⟨false, "A", "3"⟩, ⟨false, "B", "1"⟩]).Nodup :=
  ⟨by decide, by decide,
    C15_keys_distinct_without_new_inline_key [⟨"A", "1", false, ""⟩] "A" "2"
      ["B=1", "A=3", "B=4"] true false true [⟨false, "A", "3"⟩, ⟨false, "B", "1"⟩]
      (by decide) (Or.inr (Or.inr (by decide))) (by decide)⟩

/-- C16. Index safety of the merge: with `oldKeyList` and the result seeded from the existing set
as `VariableModify` does, and a file in which every non-empty line that is no comment contains
`=`, the position `contains` finds is below the length of the existing set and of the result,
`addVariableFromFlag` and `addVariablesFromFile` return a set, and so does `VariableModify`. -/
theorem C16_index_safety (old : List EnvironmentVariablesObject) (k v : String)
    (vars : List String) (f m u : Bool)
    (hlines : ∀ line ∈ vars, line ≠ "" → HasPrefixHash line = false → '=' ∈ line.data) :
    (∀ key : String, (contains (seed old).2 key).1 = true →
      (contains (seed old).2 key).2 < old.length ∧
        (contains (seed old).2 key).2 < (seed old).1.length) ∧
    (∃ r, addVariableFromFlag (seed old).2 old (seed old).1 k v u m = some r) ∧
    (∃ r, addVariablesFromFile vars (seed old).2 old (seed old).1 u m = some r) ∧
    (∃ r, VariableModify old k v vars f m u = some r) := by
  have hseedlen : old.length ≤ (old.map toInput).length := by simp
  have hfileOK : ∀ new : List EnvironmentVariable, old.length ≤ new.length →
      ∃ r, addVariablesFromFile vars (old.map EnvironmentVariablesObject.Key) old new u m
        = some r := by
    intro new hlen
    obtain ⟨st, hst⟩ := fileLoop_progress old u m vars ⟨[], new⟩ hlines hlen
    exact ⟨st.newEnvironmentVariables, by simp [addVariablesFromFile, hst]⟩
  refine ⟨?_, ?_, ?_, ?_⟩
  · intro key hex
    rw [seed_eq] at hex ⊢
    have := contains_lt _ _ hex
    simp only [List.length_map] at this ⊢
    exact ⟨this, this⟩
  · rw [seed_eq]
    obtain ⟨r, hr, -⟩ := addVariableFromFlag_progress old (old.map toInput) k v u m hseedlen
    exact ⟨r, hr⟩
  · rw [seed_eq]
    exact hfileOK _ hseedlen
  · unfold VariableModify
    simp only [seed_eq]
    by_cases hkv : k ≠ "" ∧ v ≠ ""
    · obtain ⟨r1, hr1, hlen1⟩ :=
        addVariableFromFlag_progress old (old.map toInput) k v u m hseedlen
      rw [if_pos hkv, hr1]
      cases f with
      | true => simpa using hfileOK r1 hlen1
      | false => exact ⟨r1, by simp⟩
    · rw [if_neg hkv]
      cases f with
      | true => simpa using hfileOK _ hseedlen
      | false => exact ⟨old.map toInput, by simp⟩

/-- Witness of C16: a file with a comment, an empty line, an update of the existing key `A` and
a new key: every line is well formed and the pass returns a set. -/
theorem C16_index_safety_witness :
    (∀ line ∈ ["# note", "", "A=2", "B=3"],
        line ≠ "" → HasPrefixHash line = false → '=' ∈ line.data) ∧
      VariableModify [⟨"A", "1", true, ""⟩] "C" "4" ["# note", "", "A=2", "B=3"] true false true
        = some [⟨true, "A", "2"⟩, ⟨false, "C", "4"⟩, ⟨false, "B", "3"⟩] ∧
      ∃ r, VariableModify [⟨"A", "1", true, ""⟩] "C" "4" ["# note", "", "A=2", "B=3"]
        true false true = some r :=
  ⟨by decide, by decide,
    (C16_index_safety [⟨"A", "1", true, ""⟩] "C" "4" ["# note", "", "A=2", "B=3"]
      true false true (by decide)).2.2.2⟩

end Deployment
